import Mathlib

/-!
Verification of the lithium SDS batch-retrieval pipeline
(`src/lithium/lithium.py`) against its natural-language design document.

The Python source is shallowly embedded: pure fragments become Lean
functions, the retry loops become structural recursions over the finite
list of per-attempt transport behaviours, filesystem and network effects
are threaded explicitly, and an uncaught Python exception is an
`Except.error` value.  Strings are modelled as `List Char` and paths as
lists of path components.
-/

namespace Lithium

/-! ## Chunked concurrency engine: `more_itertools.chunked`

`chunked(iterable, n)` repeatedly takes the next `n` elements until the
iterable is exhausted.  The fuel argument of `chunkedF` bounds the number
of rounds; `l.length` rounds always suffice when `1 ≤ n`. -/

def chunkedF {α : Type} : Nat → Nat → List α → List (List α)
  | 0, _, _ => []
  | _ + 1, _, [] => []
  | fuel + 1, n, l => List.take n l :: chunkedF fuel n (List.drop n l)

/-- Model of `more_itertools.chunked`: partition a list into contiguous
batches of size `n` (the last batch may be shorter). -/
def chunked {α : Type} (n : Nat) (l : List α) : List (List α) :=
  chunkedF l.length n l

/-! ## Instrumented traces for the chunked download driver

The loop `for i, chunk in enumerate(chunked_data): await gather(...)` in
`download_all_sds` runs each batch's per-item operations concurrently and
waits for the whole batch before the next one starts.  An execution is
observed as a trace of start/finish events tagged with the index of the
batch that emitted them; within one batch the interleaving is arbitrary,
and consecutive batches contribute consecutive blocks of the trace. -/

inductive Phase where
  | start : Phase
  | fin : Phase
deriving DecidableEq

structure Ev (α : Type) where
  batch : Nat
  item : α
  phase : Phase
deriving DecidableEq

/-- Items of the events of phase `p` in a trace, in trace order. -/
def eventsOf {α : Type} (p : Phase) (t : List (Ev α)) : List α :=
  t.filterMap (fun e => if e.phase = p then some e.item else none)

/-- A trace block is a valid execution of one batch `b` run by
`asyncio.gather`: every event carries the batch's index, and each item of
the batch starts exactly once and finishes exactly once, in an arbitrary
interleaving. -/
def IsBatchTrace {α : Type} (i : Nat) (b : List α) (t : List (Ev α)) : Prop :=
  (∀ e ∈ t, e.batch = i) ∧
  List.Perm (eventsOf Phase.start t) b ∧
  List.Perm (eventsOf Phase.fin t) b

/-- Valid per-batch trace blocks for a list of batches, with consecutive
batch indices starting at `i`. -/
inductive BatchTraces {α : Type} : Nat → List (List α) → List (List (Ev α)) → Prop where
  | nil (i : Nat) : BatchTraces i [] []
  | cons (i : Nat) (b : List α) (t : List (Ev α)) (bs : List (List α))
      (ts : List (List (Ev α))) (hb : IsBatchTrace i b t)
      (hrest : BatchTraces (i + 1) bs ts) : BatchTraces i (b :: bs) (t :: ts)

/-- An observable execution of the chunked engine on `items` with batch
size `B`: the trace is the concatenation of one valid block per batch,
in batch order (the `await gather` barrier between iterations). -/
def EngineTrace {α : Type} (B : Nat) (items : List α) (t : List (Ev α)) : Prop :=
  ∃ ts, t = ts.flatten ∧ BatchTraces 0 (chunked B items) ts

/-! ## Download target paths

`download_all_sds` downloads descriptor `sds` to
`output / sds["cas_number"] / f"{sds['brand']}_{sds['product_number']}.pdf"`.
Paths are modelled as lists of components. -/

def pdfExt : List Char := ['.', 'p', 'd', 'f']

/-- Final path component `f"{brand}_{product_number}.pdf"`. -/
def sds_filename (brand product_number : List Char) : List Char :=
  brand ++ '_' :: (product_number ++ pdfExt)

/-- Model of the download target path
`output / cas_number / f"{brand}_{product_number}.pdf"`. -/
def download_target (output : List (List Char)) (cas_number brand product_number : List Char) :
    List (List Char) :=
  output ++ [cas_number, sds_filename brand product_number]

/-! ## Alias key generation (`generate_key` / `build_query`)

`random.sample(ascii_letters, 52)` joined is a random permutation of the
letters; the random source is modelled as a map from the sample index to
the sampled permutation.  `generate_key` mirrors the Python loop

  while (key := sample()) in self._keys: self._keys.add(key)
  return key

note that the returned key is only added to `_keys` when it was already a
member, so the registry is in fact never extended.  The fuel bounds the
number of loop iterations. -/

def asciiLetters : List Char :=
  ['a', 'b', 'c', 'd', 'e', 'f', 'g', 'h', 'i', 'j', 'k', 'l', 'm',
   'n', 'o', 'p', 'q', 'r', 's', 't', 'u', 'v', 'w', 'x', 'y', 'z',
   'A', 'B', 'C', 'D', 'E', 'F', 'G', 'H', 'I', 'J', 'K', 'L', 'M',
   'N', 'O', 'P', 'Q', 'R', 'S', 'T', 'U', 'V', 'W', 'X', 'Y', 'Z']

/-- Model of `Lithium.generate_key`.  State: the `_keys` registry and the
next sample index; returns the generated key together with the updated
registry and sample index, or `none` when the fuel is exhausted. -/
def generate_key (src : Nat → List Char) :
    Nat → List (List Char) → Nat → Option (List Char × List (List Char) × Nat)
  | 0, _, _ => none
  | fuel + 1, keys, idx =>
    if src idx ∈ keys then generate_key src fuel (keys.insert (src idx)) (idx + 1)
    else some (src idx, keys, idx + 1)

/-- Model of `Lithium.build_query`: one alias key is generated per CAS
number and interpolated into the combined GraphQL document; the model
records the list of `(alias key, cas_number)` pairs the formatted string
contains, threading the key-registry state. -/
def build_query (src : Nat → List Char) (fuel : Nat) :
    List (List Char) → List (List Char) → Nat →
    Option (List (List Char × List Char) × List (List Char) × Nat)
  | [], keys, idx => some ([], keys, idx)
  | c :: rest, keys, idx =>
    match generate_key src fuel keys idx with
    | none => none
    | some kki =>
      match build_query src fuel rest kki.2.1 kki.2.2 with
      | none => none
      | some acc => some ((kki.1, c) :: acc.1, acc.2.1, acc.2.2)

/-! ## Document downloader (`download_single_sds`)

One retry-loop attempt of `download_single_sds` is observed through the
transport and filesystem as either
  * `err`: an exception before a response status was produced, or
  * `resp s body k`: a response with status `s` whose intended complete
    body is `body`, of which `k` bytes were streamed to disk before an
    exception (the attempt completed normally iff `k = body.length`).

The loop state is `(status_code, content of the file at the target
path)`; `aiofiles.open(output, "wb")` truncates the target, so a failed
streaming attempt leaves the `k` delivered bytes in place.  The file is
only opened in the `status == 200` branch. -/

inductive DlAttempt where
  | err : DlAttempt
  | resp (status : Int) (body : List Nat) (delivered : Nat) : DlAttempt
deriving DecidableEq

/-- Status the attempt produced, if any. -/
def attemptStatus : DlAttempt → Option Int
  | DlAttempt.err => none
  | DlAttempt.resp s _ _ => some s

/-- An attempt that reads status 200 and streams its whole body. -/
def isFullSuccess : DlAttempt → Bool
  | DlAttempt.err => false
  | DlAttempt.resp s body k => s = 200 && k = body.length

def dlBump (r : Int × Nat × Option (List Nat)) : Int × Nat × Option (List Nat) :=
  (r.1, r.2.1 + 1, r.2.2)

/-- Retry loop of `download_single_sds` over the remaining attempts.
Returns `(status_code, attempts used, file at the target path)`. -/
def dlGo : List DlAttempt → Int → Option (List Nat) → Int × Nat × Option (List Nat)
  | [], st, file => (st, 0, file)
  | DlAttempt.err :: rest, st, file => dlBump (dlGo rest st file)
  | DlAttempt.resp s body k :: rest, _st, file =>
    if s ≠ 200 then dlBump (dlGo rest s file)
    else if k = body.length then (s, 1, some body)
    else dlBump (dlGo rest s (some (List.take k body)))

/-- Model of `Lithium.download_single_sds`: `status_code = -1`, then up to
`max_retries` attempts (the list holds the behaviour of each attempt the
loop may make); the target file initially does not exist. -/
def download_single_sds (attempts : List DlAttempt) : Int × Nat × Option (List Nat) :=
  dlGo attempts (-1) none

/-! ## Document descriptors and the metadata resolver -/

structure Desc where
  name : List Char
  brand : List Char
  product_number : List Char
  cas_number : List Char
deriving DecidableEq

structure SearchItem where
  itemName : List Char
  productKey : List Char
  casNumber : Option (List Char)
  brandKey : List Char
deriving DecidableEq

structure ResultGroup where
  items : List SearchItem
deriving DecidableEq

/-- Descriptor built from one search item, skipping items whose
`casNumber` field is null (`if item["casNumber"] is not None`). -/
def descOfItem (it : SearchItem) : Option Desc :=
  match it.casNumber with
  | none => none
  | some c => Option.some ⟨it.itemName, it.brandKey, it.productKey, c⟩

/-- The list comprehension of `search_cas_numbers`: flatten the per-alias
result groups and keep the items whose CAS number field is not null. -/
def collectResults (gs : List ResultGroup) : List Desc :=
  gs.flatMap (fun g => g.items.filterMap descOfItem)

/-- One retry-loop attempt of `search_cas_numbers`: an exception before a
response (`err`), or a response with a status and a body.  The body is
`none` when `res.json()["data"]` would raise (malformed JSON or a missing
key), `some none` when the `data` field is JSON null, and
`some (some gs)` when it holds the per-alias result groups. -/
inductive SearchAttempt where
  | err : SearchAttempt
  | resp (status : Int) (body : Option (Option (List ResultGroup))) : SearchAttempt
deriving DecidableEq

/-- Whether the attempt exits the retry loop: `res.raise_for_status()`
(raising for 4xx/5xx, suppressed like any other exception) followed by
`if res.status_code == 200: break`. -/
def searchBreaks : SearchAttempt → Bool
  | SearchAttempt.err => false
  | SearchAttempt.resp s _ => if 400 ≤ s then false else if s = 200 then true else false

/-- The retry loop of `search_cas_numbers`: the response of the first
attempt that breaks, `none` when all attempts are used up. -/
def searchLoop : List SearchAttempt → Option SearchAttempt
  | [] => none
  | a :: rest => if searchBreaks a then some a else searchLoop rest

/-- Model of `Lithium.search_cas_numbers`.  The parse of the accepted
response (`res.json()["data"]`) happens after the retry loop, outside the
`suppress(Exception)` region, so a malformed body there is an uncaught
exception (`Except.error`).  `Except.ok none` is the `return None` of the
exhausted loop; `Except.ok (some ds)` a descriptor list. -/
def search_cas_numbers (attempts : List SearchAttempt) : Except Unit (Option (List Desc)) :=
  match searchLoop attempts with
  | none => Except.ok none
  | some (SearchAttempt.resp _ none) => Except.error ()
  | some (SearchAttempt.resp _ (some none)) => Except.ok (some [])
  | some (SearchAttempt.resp _ (some (some gs))) => Except.ok (some (collectResults gs))
  | some SearchAttempt.err => Except.ok none

/-! ## Collapse of per-batch resolver results and the download stage

`download_all_sds` gathers one `search_cas_numbers` result per metadata
chunk and flattens them with `collapse(results, base_type=dict)`:
lists are flattened, dicts are kept atomic, and a non-iterable `None`
(a batch whose retries were exhausted) is yielded as an element.  The
produced `sds_data` is therefore a list whose entries are either a
descriptor or `None`. -/

def collapseResults (rs : List (Option (List Desc))) : List (Option Desc) :=
  rs.flatMap (fun r => match r with
    | none => [none]
    | some ds => ds.map Option.some)

/-- Building one download argument pair
`(sds, output / sds["cas_number"] / f"{brand}_{product}.pdf")`; subscripting
`None` raises `TypeError` (an uncaught exception aborting the run). -/
def buildTarget (output : List (List Char)) :
    Option Desc → Except Unit (Desc × List (List Char))
  | none => Except.error ()
  | some d => Except.ok (d, download_target output d.cas_number d.brand d.product_number)

structure FailRec where
  status : Int
  sds : Desc
deriving DecidableEq

/-- Failure-log record written by `_download_single_sds_with_dir`: one
record iff the final download status is not 200. -/
def failRecord (statusOf : Desc → Int) (d : Desc) : Option FailRec :=
  if statusOf d = 200 then none else some ⟨statusOf d, d⟩

/-- One iteration of the download loop of `download_all_sds`: build the
argument pairs of the chunk (raising on a `None` entry) and append the
failure records of the chunk to the log, flushed before the loop moves to
the next chunk.  `statusOf` gives the final status the downloader reports
for a descriptor in this run. -/
def stageStep (output : List (List Char)) (statusOf : Desc → Int)
    (log : List FailRec) (chunk : List (Option Desc)) : Except Unit (List FailRec) :=
  match chunk.mapM (buildTarget output) with
  | Except.error e => Except.error e
  | Except.ok targets =>
    Except.ok (log ++ targets.filterMap (fun p => failRecord statusOf p.1))

/-- The chunked download stage of `download_all_sds`, yielding the failure
log of the run (or an uncaught exception). -/
def downloadStage (output : List (List Char)) (statusOf : Desc → Int)
    (B : Nat) (entries : List (Option Desc)) : Except Unit (List FailRec) :=
  List.foldlM (stageStep output statusOf) [] (chunked B entries)

/-! ## Cache layer of `download_all_sds` -/

structure CacheState where
  metaCache : Option (List (Option Desc))
  casCache : Option (List (List Char))
deriving DecidableEq

structure ResolveOut where
  data : List (Option Desc)
  fs : CacheState
  registryFetched : Bool
  searchCalls : Nat
deriving DecidableEq

/-- Metadata-acquisition phase of `download_all_sds`: if the metadata
cache file exists its parsed contents are used verbatim; otherwise the
CAS list is read from its cache or fetched from the registry (writing the
CAS cache), one `search_cas_numbers` call is made per metadata chunk, the
results are collapsed and written to the metadata cache.  `registry` is
what `get_cas_numbers` would return and `searchFn` the per-chunk resolver
result; the output records whether the registry was fetched and how many
search calls were made. -/
def resolveMetadata (fs : CacheState) (registry : List (List Char))
    (searchFn : List (List Char) → Option (List Desc)) (chunkSize : Nat) : ResolveOut :=
  match fs.metaCache with
  | some cached => ⟨cached, fs, false, 0⟩
  | none =>
    match fs.casCache with
    | some cs =>
      ⟨collapseResults ((chunked chunkSize cs).map searchFn),
       ⟨some (collapseResults ((chunked chunkSize cs).map searchFn)), some cs⟩,
       false, (chunked chunkSize cs).length⟩
    | none =>
      ⟨collapseResults ((chunked chunkSize registry).map searchFn),
       ⟨some (collapseResults ((chunked chunkSize registry).map searchFn)), some registry⟩,
       true, (chunked chunkSize registry).length⟩

/-! ## Concrete data used by the witnesses -/

def engineItemsW : List Nat := [10, 20, 30]

def engineTsW : List (List (Ev Nat)) :=
  [[⟨0, 10, Phase.start⟩, ⟨0, 20, Phase.start⟩, ⟨0, 20, Phase.fin⟩, ⟨0, 10, Phase.fin⟩],
   [⟨1, 30, Phase.start⟩, ⟨1, 30, Phase.fin⟩]]

def engineTW : List (Ev Nat) := engineTsW.flatten

def descGoodW : Desc :=
  ⟨['g'], ['S', 'I', 'A', 'L'], ['F', '8', '7', '7', '5'], ['5', '0', '-', '0', '0', '-', '0']⟩

def descBadW : Desc :=
  ⟨['b'], ['A', 'L', 'D'], ['Z', '1'], ['6', '4', '-', '1', '7', '-', '5']⟩

def statusOfW (d : Desc) : Int := if d = descBadW then 404 else 200

def groupsW : List ResultGroup :=
  [⟨[⟨['n'], ['P', 'K'], some ['5', '0'], ['B', 'R']⟩]⟩]

def cacheW : CacheState := ⟨some [some descGoodW], none⟩

/-! ## Lemmas about `chunked` -/

theorem chunkedF_congr {α : Type} (n : Nat) (hn : 1 ≤ n) :
    ∀ (fuel₁ fuel₂ : Nat) (l : List α), l.length ≤ fuel₁ → l.length ≤ fuel₂ →
      chunkedF fuel₁ n l = chunkedF fuel₂ n l := by
  intro fuel₁
  induction fuel₁ with
  | zero =>
    intro fuel₂ l h₁ h₂
    have hl : l = [] := List.eq_nil_of_length_eq_zero (Nat.le_zero.mp h₁)
    subst hl
    cases fuel₂ <;> rfl
  | succ f ih =>
    intro fuel₂ l h₁ h₂
    cases l with
    | nil => cases fuel₂ <;> rfl
    | cons a t =>
      cases fuel₂ with
      | zero => simp at h₂
      | succ f₂ =>
        simp only [chunkedF]
        congr 1
        apply ih
        · rw [List.length_drop]
          simp only [List.length_cons] at h₁ ⊢
          omega
        · rw [List.length_drop]
          simp only [List.length_cons] at h₂ ⊢
          omega

theorem chunked_cons' {α : Type} (n : Nat) (hn : 1 ≤ n) (l : List α) (hl : l ≠ []) :
    chunked n l = List.take n l :: chunked n (List.drop n l) := by
  cases l with
  | nil => exact absurd rfl hl
  | cons a t =>
    show chunkedF (t.length + 1) n (a :: t) = _
    simp only [chunkedF]
    congr 1
    apply chunkedF_congr n hn
    · rw [List.length_drop]
      simp only [List.length_cons]
      omega
    · exact Nat.le_refl _

theorem chunked_ind {α : Type} (n : Nat) (hn : 1 ≤ n) (P : List α → Prop)
    (h0 : P []) (hstep : ∀ l : List α, l ≠ [] → P (List.drop n l) → P l) :
    ∀ l : List α, P l := by
  have key : ∀ (N : Nat) (l : List α), l.length ≤ N → P l := by
    intro N
    induction N with
    | zero =>
      intro l hl
      have h : l = [] := List.eq_nil_of_length_eq_zero (Nat.le_zero.mp hl)
      subst h
      exact h0
    | succ N ih =>
      intro l hl
      by_cases hnil : l = []
      · subst hnil; exact h0
      · refine hstep l hnil (ih _ ?_)
        have hpos : 0 < l.length := List.length_pos.mpr hnil
        rw [List.length_drop]
        omega
  intro l
  exact key l.length l (Nat.le_refl _)

theorem chunked_flatten {α : Type} (n : Nat) (hn : 1 ≤ n) (l : List α) :
    (chunked n l).flatten = l := by
  refine chunked_ind n hn (fun l => (chunked n l).flatten = l) rfl ?_ l
  intro l hl ih
  rw [chunked_cons' n hn l hl, List.flatten_cons, ih, List.take_append_drop]

theorem chunked_length_eq {α : Type} (n : Nat) (hn : 1 ≤ n) (l : List α) :
    (chunked n l).length = (l.length + n - 1) / n := by
  refine chunked_ind n hn (fun l => (chunked n l).length = (l.length + n - 1) / n) ?_ ?_ l
  · show (0 : Nat) = (0 + n - 1) / n
    exact (Nat.div_eq_of_lt (by omega)).symm
  · intro l hl ih
    have hpos : 0 < l.length := List.length_pos.mpr hl
    rw [chunked_cons' n hn l hl, List.length_cons, ih, List.length_drop]
    by_cases hle : l.length ≤ n
    · have h₀ : l.length - n = 0 := by omega
      rw [h₀]
      have h₁ : (0 + n - 1) / n = 0 := Nat.div_eq_of_lt (by omega)
      have h₂ : (l.length + n - 1) / n = 1 := by
        apply Nat.div_eq_of_lt_le
        · omega
        · omega
      omega
    · have h₂ : l.length + n - 1 = (l.length - n + n - 1) + n := by omega
      rw [h₂, Nat.add_div_right _ (by omega : 0 < n)]

theorem chunked_le {α : Type} (n : Nat) (hn : 1 ≤ n) (l : List α) :
    ∀ c ∈ chunked n l, c.length ≤ n := by
  refine chunked_ind n hn (fun l => ∀ c ∈ chunked n l, c.length ≤ n) ?_ ?_ l
  · intro c hc
    simp [chunked, chunkedF] at hc
  · intro l hl ih c hc
    rw [chunked_cons' n hn l hl] at hc
    rcases List.mem_cons.mp hc with h | h
    · subst h
      rw [List.length_take]
      exact min_le_left _ _
    · exact ih c h

theorem chunked_map {α β : Type} (n : Nat) (hn : 1 ≤ n) (f : α → β) (l : List α) :
    chunked n (l.map f) = (chunked n l).map (List.map f) := by
  refine chunked_ind n hn (fun l => chunked n (l.map f) = (chunked n l).map (List.map f)) rfl ?_ l
  intro l hl ih
  have hml : l.map f ≠ [] := by
    intro hc
    exact hl (List.map_eq_nil_iff.mp hc)
  rw [chunked_cons' n hn l hl, chunked_cons' n hn (l.map f) hml, List.map_cons]
  congr 1
  · exact (List.map_take f l n).symm
  · rw [← List.map_drop f l n]
    exact ih

/-! ## Lemmas about batch traces -/

theorem eventsOf_append {α : Type} (p : Phase) (t₁ t₂ : List (Ev α)) :
    eventsOf p (t₁ ++ t₂) = eventsOf p t₁ ++ eventsOf p t₂ :=
  List.filterMap_append _ _ _

theorem batchTraces_le {α : Type} {i : Nat} {bs : List (List α)}
    {ts : List (List (Ev α))} (h : BatchTraces i bs ts) :
    ∀ e ∈ ts.flatten, i ≤ e.batch := by
  induction h with
  | nil j => intro e he; simp at he
  | cons j b t bs ts hb hrest ih =>
    intro e he
    rw [List.flatten_cons] at he
    rcases List.mem_append.mp he with h₁ | h₂
    · exact le_of_eq (hb.1 e h₁).symm
    · exact Nat.le_of_succ_le (ih e h₂)

theorem batchTraces_pairwise {α : Type} {i : Nat} {bs : List (List α)}
    {ts : List (List (Ev α))} (h : BatchTraces i bs ts) :
    List.Pairwise (fun e₁ e₂ : Ev α => e₁.batch ≤ e₂.batch) ts.flatten := by
  induction h with
  | nil j => simp
  | cons j b t bs ts hb hrest ih =>
    rw [List.flatten_cons, List.pairwise_append]
    refine ⟨?_, ih, ?_⟩
    · apply List.pairwise_of_forall_mem_list
      intro a ha e he
      rw [hb.1 a ha, hb.1 e he]
    · intro a ha e he
      rw [hb.1 a ha]
      exact Nat.le_of_succ_le (batchTraces_le hrest e he)

theorem batchTraces_count {α : Type} [DecidableEq α] (p : Phase) {i : Nat}
    {bs : List (List α)} {ts : List (List (Ev α))} (h : BatchTraces i bs ts) (x : α) :
    (eventsOf p ts.flatten).count x = bs.flatten.count x := by
  induction h with
  | nil j => rfl
  | cons j b t bs ts hb hrest ih =>
    rw [List.flatten_cons, List.flatten_cons, eventsOf_append, List.count_append,
      List.count_append, ih]
    congr 1
    cases p with
    | start => exact hb.2.1.count_eq x
    | fin => exact hb.2.2.count_eq x

/-- C1: for every batch size B ≥ 1 and every input list, the chunked
pipeline of `download_all_sds` splits the input into ceil(N/B) contiguous
batches (each of size at most B, so only the final one may be short)
whose concatenation is the input in its original order; along every
observable execution trace each input item's operation is started exactly
once and finished exactly once, and batch indices are monotone along the
trace, so no event of batch i+1 precedes any event — in particular any
completion — of batch i. -/
theorem chunked_engine_spec {α : Type} [DecidableEq α] (B : Nat) (items : List α)
    (t : List (Ev α)) (hB : 1 ≤ B) (h : EngineTrace B items t) :
    (chunked B items).length = (items.length + B - 1) / B ∧
    (chunked B items).flatten = items ∧
    (∀ c ∈ chunked B items, c.length ≤ B) ∧
    (∀ x : α, (eventsOf Phase.start t).count x = items.count x) ∧
    (∀ x : α, (eventsOf Phase.fin t).count x = items.count x) ∧
    List.Pairwise (fun e₁ e₂ : Ev α => e₁.batch ≤ e₂.batch) t := by
  obtain ⟨ts, rfl, hbt⟩ := h
  refine ⟨chunked_length_eq B hB items, chunked_flatten B hB items,
    chunked_le B hB items, ?_, ?_, batchTraces_pairwise hbt⟩
  · intro x
    rw [batchTraces_count Phase.start hbt x, chunked_flatten B hB items]
  · intro x
    rw [batchTraces_count Phase.fin hbt x, chunked_flatten B hB items]

theorem engineTrace_holds : EngineTrace 2 engineItemsW engineTW := by
  refine ⟨engineTsW, rfl, ?_⟩
  have hch : chunked 2 engineItemsW = [[10, 20], [30]] := rfl
  rw [hch]
  refine BatchTraces.cons 0 _ _ _ _ ?_ (BatchTraces.cons 1 _ _ _ _ ?_ (BatchTraces.nil 2))
  · exact ⟨by decide, by decide, by decide⟩
  · exact ⟨by decide, by decide, by decide⟩

/-- Witness for C1: the engine ordering property instantiated at batch
size 2, items [10, 20, 30] and a concrete interleaved trace. -/
theorem chunked_engine_spec_witness :
    List.Pairwise (fun e₁ e₂ : Ev Nat => e₁.batch ≤ e₂.batch) engineTW :=
  (chunked_engine_spec 2 engineItemsW engineTW (by decide) engineTrace_holds).2.2.2.2.2

/-! ## Download target paths (C2) -/

/-- Splitting at the first occurrence of a separator that occurs in
neither prefix is unambiguous. -/
theorem sep_split_inj {s : Char} :
    ∀ (a : List Char) (b : List Char) (c : List Char) (d : List Char),
      s ∉ a → s ∉ c → a ++ s :: b = c ++ s :: d → a = c ∧ b = d := by
  intro a
  induction a with
  | nil =>
    intro b c d ha hc h
    cases c with
    | nil =>
      simp only [List.nil_append, List.cons.injEq] at h
      exact ⟨rfl, h.2⟩
    | cons x xs =>
      simp only [List.nil_append, List.cons_append, List.cons.injEq] at h
      rw [h.1] at hc
      exact absurd (List.mem_cons_self _ _) hc
  | cons y ys ih =>
    intro b c d ha hc h
    cases c with
    | nil =>
      simp only [List.cons_append, List.nil_append, List.cons.injEq] at h
      rw [← h.1] at ha
      exact absurd (List.mem_cons_self _ _) ha
    | cons x xs =>
      simp only [List.cons_append, List.cons.injEq] at h
      have ha' : s ∉ ys := fun hm => ha (List.mem_cons_of_mem _ hm)
      have hc' : s ∉ xs := fun hm => hc (List.mem_cons_of_mem _ hm)
      obtain ⟨h₁, h₂⟩ := ih b xs d ha' hc' h.2
      exact ⟨by rw [h.1, h₁], h₂⟩

/-- C2 counterexample: the descriptors (brand "a_b", product "c") and
(brand "a", product "b_c") have different (brand, product_number) pairs
yet map to the same download target path, since the filename just joins
brand and product number with an underscore that may also occur inside
the fields. -/
theorem download_target_collision :
    (('a' :: '_' :: ['b'], ['c']) ≠ (['a'], 'b' :: '_' :: ['c'])) ∧
    download_target [] ['6', '4'] ('a' :: '_' :: ['b']) ['c'] =
      download_target [] ['6', '4'] ['a'] ('b' :: '_' :: ['c']) := by
  exact ⟨by decide, rfl⟩

/-- C2 amended: the download target is a pure function of
(output_dir, cas_number, brand, product_number), hence identical across
repeated calls; and for a fixed output_dir and cas_number, two
descriptors whose brand fields contain no underscore map to the same
path only when they agree on both brand and product_number. -/
theorem download_target_deterministic_inj (output : List (List Char))
    (cas b₁ p₁ b₂ p₂ : List Char) (h₁ : '_' ∉ b₁) (h₂ : '_' ∉ b₂)
    (h : download_target output cas b₁ p₁ = download_target output cas b₂ p₂) :
    b₁ = b₂ ∧ p₁ = p₂ := by
  unfold download_target at h
  have hf : sds_filename b₁ p₁ = sds_filename b₂ p₂ := by
    have h' := List.append_cancel_left h
    simp only [List.cons.injEq] at h'
    exact h'.2.1
  unfold sds_filename at hf
  obtain ⟨hb, hp⟩ := sep_split_inj b₁ (p₁ ++ pdfExt) b₂ (p₂ ++ pdfExt) h₁ h₂ hf
  exact ⟨hb, List.append_cancel_right hp⟩

/-- Witness for C2 (amended): the injectivity statement applied at a
concrete underscore-free brand and product pair. -/
theorem download_target_deterministic_inj_witness :
    (['a'] : List Char) = ['a'] ∧ (['b'] : List Char) = ['b'] :=
  download_target_deterministic_inj [] ['6', '4'] ['a'] ['b'] ['a'] ['b']
    (by decide) (by decide) rfl

/-! ## Alias key generation (C3) -/

/-- The registry of used keys is never extended by `generate_key`: the
`add` happens only when the sampled key is already a member (so it is a
no-op), and the key actually returned is never recorded. -/
theorem generate_key_preserves_keys (src : Nat → List Char) :
    ∀ (fuel : Nat) (keys : List (List Char)) (idx : Nat) (k : List Char)
      (keys₂ : List (List Char)) (idx₂ : Nat),
      generate_key src fuel keys idx = some (k, keys₂, idx₂) →
      keys₂ = keys ∧ k ∉ keys := by
  intro fuel
  induction fuel with
  | zero => intro keys idx k keys₂ idx₂ h; exact absurd h (by simp [generate_key])
  | succ f ih =>
    intro keys idx k keys₂ idx₂ h
    by_cases hm : src idx ∈ keys
    · rw [generate_key, if_pos hm, List.insert_of_mem hm] at h
      exact ih keys (idx + 1) k keys₂ idx₂ h
    · rw [generate_key, if_neg hm] at h
      simp only [Option.some.injEq, Prod.mk.injEq] at h
      exact ⟨h.2.1.symm, h.1 ▸ hm⟩

/-- C3: because `generate_key` never records the key it returns, a random
source that samples the same letter permutation twice in a row makes
`build_query` use the same alias key for both CAS numbers of a
two-element batch: the generated identifier set is not collision-free
for every state of the random source. -/
theorem build_query_duplicate_keys :
    Option.map (fun r => r.1.map Prod.fst)
        (build_query (fun _ => asciiLetters) 1
          [['5', '0', '-', '0', '0', '-', '0'], ['6', '4', '-', '1', '7', '-', '5']] [] 0) =
      some [asciiLetters, asciiLetters] ∧
    ¬ List.Pairwise (fun a b : List Char => a ≠ b) [asciiLetters, asciiLetters] := by
  refine ⟨rfl, fun hp => ?_⟩
  exact (List.pairwise_cons.mp hp).1 asciiLetters (List.mem_cons_self _ _) rfl

/-! ## Retry loop of the document downloader (C4, C5) -/

theorem dlGo_attempts_le :
    ∀ (as : List DlAttempt) (st : Int) (file : Option (List Nat)),
      (dlGo as st file).2.1 ≤ as.length := by
  intro as
  induction as with
  | nil => intro st file; simp [dlGo]
  | cons a rest ih =>
    intro st file
    cases a with
    | err =>
      simp only [dlGo, dlBump, List.length_cons]
      exact Nat.succ_le_succ (ih st file)
    | resp s body k =>
      by_cases hs : s = 200
      · by_cases hk : k = body.length
        · simp [dlGo, hs, hk, dlBump]
        · simp only [dlGo, hs, hk, dlBump, List.length_cons, if_neg (by omega : ¬(200 : Int) ≠ 200), if_neg hk]
          exact Nat.succ_le_succ (ih 200 (some (List.take k body)))
      · simp only [dlGo, dlBump, List.length_cons, if_pos hs]
        exact Nat.succ_le_succ (ih s file)

theorem dlGo_all_err :
    ∀ (as : List DlAttempt), (∀ a ∈ as, a = DlAttempt.err) →
      ∀ (st : Int) (file : Option (List Nat)), dlGo as st file = (st, as.length, file) := by
  intro as
  induction as with
  | nil => intro h st file; rfl
  | cons a rest ih =>
    intro h st file
    have ha : a = DlAttempt.err := h a (List.mem_cons_self _ _)
    subst ha
    have ht : ∀ b ∈ rest, b = DlAttempt.err := fun b hb => h b (List.mem_cons_of_mem _ hb)
    simp [dlGo, dlBump, ih ht st file]

theorem dlGo_no_200 :
    ∀ (as : List DlAttempt), (∀ a ∈ as, attemptStatus a ≠ some 200) →
      ∀ (st : Int) (file : Option (List Nat)),
        dlGo as st file = ((as.filterMap attemptStatus).getLastD st, as.length, file) := by
  intro as
  induction as with
  | nil => intro h st file; rfl
  | cons a rest ih =>
    intro h st file
    have ht : ∀ b ∈ rest, attemptStatus b ≠ some 200 :=
      fun b hb => h b (List.mem_cons_of_mem _ hb)
    cases a with
    | err =>
      simp only [dlGo, dlBump, ih ht st file, List.length_cons,
        List.filterMap_cons, attemptStatus]
    | resp s body k =>
      have hs : s ≠ 200 := by
        intro hc
        exact h _ (List.mem_cons_self _ _) (by simp [attemptStatus, hc])
      simp only [dlGo, if_pos hs, dlBump, ih ht s file, List.length_cons,
        List.filterMap_cons, attemptStatus, List.getLastD_cons]

theorem dlGo_first_success :
    ∀ (pre : List DlAttempt) (body : List Nat) (post : List DlAttempt),
      (∀ a ∈ pre, isFullSuccess a = false) →
      ∀ (st : Int) (file : Option (List Nat)),
        dlGo (pre ++ DlAttempt.resp 200 body body.length :: post) st file =
          (200, pre.length + 1, some body) := by
  intro pre
  induction pre with
  | nil =>
    intro body post h st file
    simp [dlGo]
  | cons a rest ih =>
    intro body post h st file
    have ht : ∀ b ∈ rest, isFullSuccess b = false :=
      fun b hb => h b (List.mem_cons_of_mem _ hb)
    have ha : isFullSuccess a = false := h a (List.mem_cons_self _ _)
    cases a with
    | err =>
      have hrec := ih body post ht st file
      simp only [List.cons_append, dlGo, dlBump, List.append_eq, List.length_cons, hrec]
    | resp s b k =>
      by_cases hs : s = 200
      · subst hs
        have hk : k ≠ b.length := by
          intro hc
          rw [isFullSuccess, hc] at ha
          simp at ha
        have hrec := ih body post ht 200 (some (List.take k b))
        simp only [List.cons_append, dlGo, if_neg (by omega : ¬(200 : Int) ≠ 200),
          if_neg hk, dlBump, List.append_eq, List.length_cons, hrec]
      · have hrec := ih body post ht s file
        simp only [List.cons_append, dlGo, if_pos hs, dlBump, List.append_eq,
          List.length_cons, hrec]

theorem dlGo_status_observed :
    ∀ (as : List DlAttempt) (st : Int) (file : Option (List Nat)),
      (dlGo as st file).1 = st ∨
        ∃ a ∈ as, attemptStatus a = some (dlGo as st file).1 := by
  intro as
  induction as with
  | nil => intro st file; exact Or.inl rfl
  | cons a rest ih =>
    intro st file
    cases a with
    | err =>
      have hfst : (dlGo (DlAttempt.err :: rest) st file).1 = (dlGo rest st file).1 := rfl
      rcases ih st file with h | ⟨b, hb, hs⟩
      · exact Or.inl (hfst.trans h)
      · exact Or.inr ⟨b, List.mem_cons_of_mem _ hb, by rw [hfst]; exact hs⟩
    | resp s body k =>
      by_cases hs : s = 200
      · by_cases hk : k = body.length
        · refine Or.inr ⟨_, List.mem_cons_self _ _, ?_⟩
          simp [dlGo, hs, hk, attemptStatus]
        · have hfst : (dlGo (DlAttempt.resp s body k :: rest) st file).1 =
              (dlGo rest s (some (List.take k body))).1 := by
            simp [dlGo, hs, hk, dlBump]
          rcases ih s (some (List.take k body)) with h | ⟨b, hb, hsb⟩
          · exact Or.inr ⟨_, List.mem_cons_self _ _, by
              rw [hfst, h, attemptStatus]⟩
          · exact Or.inr ⟨b, List.mem_cons_of_mem _ hb, by rw [hfst]; exact hsb⟩
      · have hfst : (dlGo (DlAttempt.resp s body k :: rest) st file).1 =
            (dlGo rest s file).1 := by
          simp [dlGo, hs, dlBump]
        rcases ih s file with h | ⟨b, hb, hsb⟩
        · exact Or.inr ⟨_, List.mem_cons_self _ _, by rw [hfst, h, attemptStatus]⟩
        · exact Or.inr ⟨b, List.mem_cons_of_mem _ hb, by rw [hfst]; exact hsb⟩

/-- C4 counterexample: a transport whose first attempt answers status 200
but throws while streaming the body (0 of 1 bytes delivered) and whose
second attempt throws before a status.  With max_retries = 2 the
downloader makes both attempts — it does not return immediately after
the first attempt whose response status is 200 — and at exhaustion it
returns that recorded 200 with a truncated (empty) file. -/
theorem download_not_immediate_on_200 :
    attemptStatus (DlAttempt.resp 200 [65] 0) = some 200 ∧
    download_single_sds [DlAttempt.resp 200 [65] 0, DlAttempt.err] = (200, 2, some []) ∧
    (download_single_sds [DlAttempt.resp 200 [65] 0, DlAttempt.err]).2.1 ≠ 1 := by
  exact ⟨rfl, rfl, by decide⟩

/-- C4 amended: `download_single_sds` makes at most max_retries attempts;
it returns 200 right after the first attempt whose response status is 200
and whose body is streamed to disk completely; with a transport that
always throws it returns the -1 sentinel after exactly max_retries
attempts; and when no attempt ever produces status 200 it returns, after
exactly max_retries attempts, the last observed status (the sentinel -1
when every attempt threw before producing one) and writes nothing. -/
theorem download_retry_spec (attempts : List DlAttempt) :
    (download_single_sds attempts).2.1 ≤ attempts.length ∧
    (∀ (pre : List DlAttempt) (body : List Nat) (post : List DlAttempt),
        attempts = pre ++ DlAttempt.resp 200 body body.length :: post →
        (∀ a ∈ pre, isFullSuccess a = false) →
        download_single_sds attempts = (200, pre.length + 1, some body)) ∧
    ((∀ a ∈ attempts, a = DlAttempt.err) →
        download_single_sds attempts = (-1, attempts.length, none)) ∧
    ((∀ a ∈ attempts, attemptStatus a ≠ some 200) →
        download_single_sds attempts =
          ((attempts.filterMap attemptStatus).getLastD (-1), attempts.length, none)) := by
  refine ⟨dlGo_attempts_le attempts (-1) none, ?_, ?_, ?_⟩
  · intro pre body post heq hpre
    rw [heq]
    exact dlGo_first_success pre body post hpre (-1) none
  · intro h
    exact dlGo_all_err attempts h (-1) none
  · intro h
    exact dlGo_no_200 attempts h (-1) none

/-- Witness for C4 (amended): the always-failing transport of length two
returns the sentinel after exactly two attempts, writing nothing. -/
theorem download_retry_spec_witness :
    download_single_sds [DlAttempt.err, DlAttempt.err] = (-1, 2, none) :=
  (download_retry_spec [DlAttempt.err, DlAttempt.err]).2.2.1 (by decide)

/-- C5: the downloader streams the body directly to the final target
path (`aiofiles.open(output, "wb")` inside the 200 branch): an attempt
that reads status 200 but throws after delivering 2 of the 3 body bytes
leaves the two-byte prefix at the target path, and after the last attempt
throws the function returns with that partial — not complete — body
still in place (and even reports status 200). -/
theorem download_partial_file_left :
    download_single_sds [DlAttempt.resp 200 [65, 66, 67] 2, DlAttempt.err] =
      (200, 2, some [65, 66]) ∧
    [65, 66] = List.take 2 [65, 66, 67] ∧
    ([65, 66] : List Nat) ≠ [65, 66, 67] := by
  exact ⟨rfl, rfl, by decide⟩

/-! ## Resolver-failure entries abort the download stage (C6) -/

/-- C6: a metadata batch whose retries were exhausted resolves to `None`;
`collapse(..., base_type=dict)` keeps that `None` as an element of
`sds_data`, and the download stage then subscripts it
(`sds["cas_number"]`), raising `TypeError`: the run aborts with an
uncaught exception instead of skipping the lost batch and processing the
remaining descriptors. -/
theorem resolver_failure_aborts_run :
    collapseResults [none, some [descGoodW]] = [none, some descGoodW] ∧
    downloadStage [] statusOfW 64 (collapseResults [none, some [descGoodW]]) =
      Except.error () := by
  exact ⟨rfl, rfl⟩

/-! ## Failure log of the download stage (C9) -/

theorem mapM_buildTarget_some (output : List (List Char)) :
    ∀ ds : List Desc,
      (ds.map Option.some).mapM (buildTarget output) =
        Except.ok (ds.map (fun d =>
          (d, download_target output d.cas_number d.brand d.product_number))) := by
  intro ds
  induction ds with
  | nil => rfl
  | cons d rest ih =>
    rw [List.map_cons, List.mapM_cons]
    rw [show buildTarget output (some d) =
      Except.ok (d, download_target output d.cas_number d.brand d.product_number) from rfl]
    rw [ih]
    rfl

theorem stageStep_some (output : List (List Char)) (statusOf : Desc → Int)
    (log : List FailRec) (c : List Desc) :
    stageStep output statusOf log (c.map Option.some) =
      Except.ok (log ++ c.filterMap (failRecord statusOf)) := by
  unfold stageStep
  rw [mapM_buildTarget_some output c]
  show Except.ok (log ++ List.filterMap (fun p => failRecord statusOf p.1)
      (c.map (fun d => (d, download_target output d.cas_number d.brand d.product_number)))) = _
  rw [List.filterMap_map]
  rfl

theorem foldlM_stage_some (output : List (List Char)) (statusOf : Desc → Int) :
    ∀ (cs : List (List Desc)) (log : List FailRec),
      List.foldlM (stageStep output statusOf) log (cs.map (List.map Option.some)) =
        Except.ok (log ++ cs.flatten.filterMap (failRecord statusOf)) := by
  intro cs
  induction cs with
  | nil =>
    intro log
    show Except.ok log = Except.ok (log ++ [])
    rw [List.append_nil]
  | cons c rest ih =>
    intro log
    rw [List.map_cons, List.foldlM_cons, stageStep_some output statusOf log c]
    show List.foldlM (stageStep output statusOf) (log ++ c.filterMap (failRecord statusOf))
        (rest.map (List.map Option.some)) = _
    rw [ih (log ++ c.filterMap (failRecord statusOf))]
    rw [List.flatten_cons, List.filterMap_append, List.append_assoc]

theorem failRecord_spec {statusOf : Desc → Int} {d : Desc} {r : FailRec}
    (h : failRecord statusOf d = some r) :
    r.status = statusOf d ∧ r.sds = d ∧ statusOf d ≠ 200 := by
  unfold failRecord at h
  by_cases hd : statusOf d = 200
  · rw [if_pos hd] at h
    exact absurd h (by simp)
  · rw [if_neg hd] at h
    simp only [Option.some.injEq] at h
    subst h
    exact ⟨rfl, rfl, hd⟩

theorem length_filterMap_failRecord (statusOf : Desc → Int) :
    ∀ ds : List Desc,
      (ds.filterMap (failRecord statusOf)).length =
        (ds.filter (fun d => statusOf d ≠ 200)).length := by
  intro ds
  induction ds with
  | nil => rfl
  | cons d rest ih =>
    by_cases hd : statusOf d = 200
    · simp [List.filterMap_cons, List.filter_cons, failRecord, hd, ih]
    · simp [List.filterMap_cons, List.filter_cons, failRecord, hd, ih]

/-- C9: for every completed run the failure log is exactly the list of
records of the permanently-failed downloads in order: one record per
descriptor whose final status is not 200 — so K permanent failures give
exactly K records — each record carries a status ≠ 200, no successful
download contributes a record, and after the engine finishes its first i
batches the log already holds exactly the failures of those batches
(append-and-flush before the next batch starts). -/
theorem failure_log_complete (output : List (List Char)) (statusOf : Desc → Int)
    (B : Nat) (ds : List Desc) (hB : 1 ≤ B) :
    downloadStage output statusOf B (ds.map Option.some) =
      Except.ok (ds.filterMap (failRecord statusOf)) ∧
    (ds.filterMap (failRecord statusOf)).length =
      (ds.filter (fun d => statusOf d ≠ 200)).length ∧
    (∀ r ∈ ds.filterMap (failRecord statusOf), r.status ≠ 200 ∧ statusOf r.sds ≠ 200) ∧
    (∀ i : Nat,
      List.foldlM (stageStep output statusOf) [] ((chunked B (ds.map Option.some)).take i) =
        Except.ok (((chunked B ds).take i).flatten.filterMap (failRecord statusOf))) := by
  refine ⟨?_, length_filterMap_failRecord statusOf ds, ?_, ?_⟩
  · unfold downloadStage
    rw [chunked_map B hB Option.some ds]
    have h := foldlM_stage_some output statusOf (chunked B ds) []
    rw [List.nil_append] at h
    rw [h, chunked_flatten B hB ds]
  · intro r hr
    obtain ⟨d, _, hfr⟩ := List.mem_filterMap.mp hr
    obtain ⟨h₁, h₂, h₃⟩ := failRecord_spec hfr
    exact ⟨by rw [h₁]; exact h₃, by rw [h₂]; exact h₃⟩
  · intro i
    rw [chunked_map B hB Option.some ds, ← List.map_take]
    have h := foldlM_stage_some output statusOf ((chunked B ds).take i) []
    rw [List.nil_append] at h
    exact h

/-- Witness for C9: a one-per-batch run over one successful and one
failing descriptor produces exactly the failing descriptor's record. -/
theorem failure_log_complete_witness :
    downloadStage [] statusOfW 1 ([descGoodW, descBadW].map Option.some) =
      Except.ok ([descGoodW, descBadW].filterMap (failRecord statusOfW)) :=
  (failure_log_complete [] statusOfW 1 [descGoodW, descBadW] (by decide)).1

/-! ## Metadata resolver results (C7) and exception behaviour (C10) -/

theorem searchLoop_append_no_break :
    ∀ (pre : List SearchAttempt), (∀ a ∈ pre, searchBreaks a = false) →
      ∀ (rest : List SearchAttempt), searchLoop (pre ++ rest) = searchLoop rest := by
  intro pre
  induction pre with
  | nil => intro _ rest; rfl
  | cons a t ih =>
    intro h rest
    have ha : searchBreaks a = false := h a (List.mem_cons_self _ _)
    rw [List.cons_append, searchLoop, ha]
    exact ih (fun b hb => h b (List.mem_cons_of_mem _ hb)) rest

/-- C7 counterexample: an item whose CAS-number field is the empty string
(not null) passes the `is not None` filter of `search_cas_numbers`, so a
descriptor with an empty cas_number appears in the returned list. -/
theorem search_keeps_empty_cas :
    search_cas_numbers
        [SearchAttempt.resp 200
          (some (some [⟨[⟨['n'], ['P', 'K'], some [], ['B', 'R']⟩]⟩]))] =
      Except.ok (some [⟨['n'], ['B', 'R'], ['P', 'K'], []⟩]) ∧
    (⟨['n'], ['B', 'R'], ['P', 'K'], []⟩ : Desc).cas_number = [] := by
  exact ⟨rfl, rfl⟩

/-- C7 amended: on a successful batch response `search_cas_numbers`
returns the per-alias result groups flattened, in order, into one
descriptor sequence, excluding exactly the items whose CAS-number field
is null: a descriptor is returned iff it is built from an item with a
non-null CAS number (an item with an empty-string CAS number is kept —
see the counterexample). -/
theorem search_flatten_spec (pre : List SearchAttempt) (gs : List ResultGroup)
    (hpre : ∀ a ∈ pre, searchBreaks a = false) :
    search_cas_numbers (pre ++ [SearchAttempt.resp 200 (some (some gs))]) =
      Except.ok (some (collectResults gs)) ∧
    collectResults gs = (gs.flatMap ResultGroup.items).filterMap descOfItem ∧
    (∀ d : Desc, d ∈ collectResults gs ↔
      ∃ it ∈ gs.flatMap ResultGroup.items, descOfItem it = some d) ∧
    (∀ d ∈ collectResults gs, ∃ it ∈ gs.flatMap ResultGroup.items,
      it.casNumber = some d.cas_number) := by
  have hflat : collectResults gs = (gs.flatMap ResultGroup.items).filterMap descOfItem :=
    (List.filterMap_flatMap gs ResultGroup.items descOfItem).symm
  refine ⟨?_, hflat, ?_, ?_⟩
  · unfold search_cas_numbers
    rw [searchLoop_append_no_break pre hpre [SearchAttempt.resp 200 (some (some gs))]]
    rfl
  · intro d
    rw [hflat]
    exact List.mem_filterMap
  · intro d hd
    rw [hflat] at hd
    obtain ⟨it, hit, he⟩ := List.mem_filterMap.mp hd
    refine ⟨it, hit, ?_⟩
    unfold descOfItem at he
    cases hcn : it.casNumber with
    | none => rw [hcn] at he; exact absurd he (by simp)
    | some c =>
      rw [hcn] at he
      simp only [Option.some.injEq] at he
      subst he
      rfl

/-- Witness for C7 (amended): the flattening result on a concrete
one-group response accepted at the first attempt. -/
theorem search_flatten_spec_witness :
    search_cas_numbers ([] ++ [SearchAttempt.resp 200 (some (some groupsW))]) =
      Except.ok (some (collectResults groupsW)) :=
  (search_flatten_spec [] groupsW (by simp)).1

/-- C10 counterexample: a response accepted by the retry loop (status
200) whose body fails to parse makes `search_cas_numbers` propagate the
exception — `res.json()["data"]` runs after the loop, outside the
`suppress(Exception)` region. -/
theorem search_propagates_parse_error :
    search_cas_numbers [SearchAttempt.resp 200 none] = Except.error () := rfl

/-- C10 amended: every per-attempt error of both retry loops is
swallowed: if no attempt of `search_cas_numbers` breaks its loop the
function returns the no-result value; `search_cas_numbers` propagates an
exception exactly when the response its loop accepted has a body the
post-loop parse raises on; and `download_single_sds` always returns an
integer — the -1 sentinel or a status observed from one of its
attempts — never an exception. -/
theorem retry_swallow_spec (sAttempts : List SearchAttempt) (dAttempts : List DlAttempt) :
    ((∀ a ∈ sAttempts, searchBreaks a = false) →
        search_cas_numbers sAttempts = Except.ok none) ∧
    (search_cas_numbers sAttempts = Except.error () ↔
        ∃ s : Int, searchLoop sAttempts = some (SearchAttempt.resp s none)) ∧
    ((download_single_sds dAttempts).1 = -1 ∨
        ∃ a ∈ dAttempts, attemptStatus a = some (download_single_sds dAttempts).1) := by
  refine ⟨?_, ?_, dlGo_status_observed dAttempts (-1) none⟩
  · intro h
    have hl : searchLoop sAttempts = none := by
      have := searchLoop_append_no_break sAttempts h []
      rw [List.append_nil] at this
      exact this
    unfold search_cas_numbers
    rw [hl]
  · unfold search_cas_numbers
    cases hl : searchLoop sAttempts with
    | none => simp
    | some a =>
      cases a with
      | err => simp
      | resp s body =>
        cases body with
        | none => simp
        | some gdata => cases gdata <;> simp

/-- Witness for C10 (amended): a transport whose single attempt throws
makes `search_cas_numbers` return the no-result value, not an
exception. -/
theorem retry_swallow_spec_witness :
    search_cas_numbers [SearchAttempt.err] = Except.ok none :=
  (retry_swallow_spec [SearchAttempt.err] []).1 (by decide)

/-! ## Cache layer (C8) -/

/-- C8: when the metadata cache exists at the start of a run,
`download_all_sds` uses the cached descriptor list verbatim — no registry
fetch, no vendor search call, cache state untouched; moreover after any
run the metadata cache holds exactly the produced data, so a second run
(whatever the registry or resolver would now answer) returns identical
data with no registry fetch and zero search calls. -/
theorem metadata_cache_short_circuit (fs : CacheState)
    (registry registry₂ : List (List Char))
    (s₁ s₂ : List (List Char) → Option (List Desc)) (B₁ B₂ : Nat) :
    (∀ cached, fs.metaCache = some cached →
        resolveMetadata fs registry s₁ B₁ = ⟨cached, fs, false, 0⟩) ∧
    (resolveMetadata fs registry s₁ B₁).fs.metaCache =
      some (resolveMetadata fs registry s₁ B₁).data ∧
    (resolveMetadata (resolveMetadata fs registry s₁ B₁).fs registry₂ s₂ B₂).data =
      (resolveMetadata fs registry s₁ B₁).data ∧
    (resolveMetadata (resolveMetadata fs registry s₁ B₁).fs registry₂ s₂ B₂).registryFetched
      = false ∧
    (resolveMetadata (resolveMetadata fs registry s₁ B₁).fs registry₂ s₂ B₂).searchCalls = 0 ∧
    (resolveMetadata (resolveMetadata fs registry s₁ B₁).fs registry₂ s₂ B₂).fs =
      (resolveMetadata fs registry s₁ B₁).fs := by
  obtain ⟨mc, cc⟩ := fs
  cases mc with
  | some cached =>
    refine ⟨?_, rfl, rfl, rfl, rfl, rfl⟩
    intro c hc
    simp only [Option.some.injEq] at hc
    subst hc
    rfl
  | none =>
    cases cc with
    | some cs =>
      refine ⟨?_, rfl, rfl, rfl, rfl, rfl⟩
      intro c hc
      simp at hc
    | none =>
      refine ⟨?_, rfl, rfl, rfl, rfl, rfl⟩
      intro c hc
      simp at hc

/-- Witness for C8: a run whose metadata cache already holds one cached
entry uses it verbatim with no registry fetch and no search calls. -/
theorem metadata_cache_short_circuit_witness :
    resolveMetadata cacheW [] (fun _ => none) 256 = ⟨[some descGoodW], cacheW, false, 0⟩ :=
  (metadata_cache_short_circuit cacheW [] [] (fun _ => none) (fun _ => none) 256 256).1
    [some descGoodW] rfl

end Lithium
